import Mathlib

/-!
Shallow embedding of the IBM index-selection algorithm
(selection/algorithms/ibm_algorithm.py) together with the data model it
operates on, and theorems settling the specification claims about it.

Machine floats (plan costs, sizes) are modelled as rationals; Python sets
of hashable objects are modelled as finite sets over types with decidable
equality; Python lists as Lean lists.
-/

namespace IBM

/-- Modelled from the spec: the workload data model (selection/workload.py is
not part of the provided sources).  A column identifies a table column;
equality is by (table, name). -/
structure Column where
  table : String
  name : String
  deriving DecidableEq, Repr

/-- Modelled from the spec: the index candidate model (selection/index.py is
not part of the provided sources).  An index is an ordered sequence of
columns with an estimated on-disk size; it is compared by the identity of
its column sequence (the estimated size is set at most once and constant
thereafter, so structural equality coincides with column-sequence identity
on the values reachable in one run). -/
structure Index where
  columns : List Column
  estimatedSize : ℚ
  deriving DecidableEq, Repr

/-- Modelled from the spec: index A subsumes index B iff B's column sequence
is a prefix of A's column sequence (left-prefix usability). -/
def Index.subsumes (a b : Index) : Prop :=
  b.columns <+: a.columns

instance (a b : Index) : Decidable (a.subsumes b) :=
  inferInstanceAs (Decidable (b.columns <+: a.columns))

/-- Embeds the IndexBenefit class: an index paired with a scalar benefit;
equality and hashing are by the (index, benefit) pair. -/
structure IndexBenefit where
  index : Index
  benefit : ℚ
  deriving DecidableEq, Repr

/-- Embeds IndexBenefit.size(). -/
def IndexBenefit.size (ib : IndexBenefit) : ℚ :=
  ib.index.estimatedSize

/-- Embeds IndexBenefit.benefit_size_ratio(). -/
def IndexBenefit.benefitPerSize (ib : IndexBenefit) : ℚ :=
  ib.benefit / ib.size

/-- Body of the inner loop of _combine_subsumed: an already-removed later
candidate is skipped, a later candidate subsumed by the fixed higher-ratio
candidate hi is marked as removed. -/
def innerStep (hi : IndexBenefit) (rem : Finset IndexBenefit)
    (lo : IndexBenefit) : Finset IndexBenefit :=
  if lo ∈ rem then rem
  else if hi.index.subsumes lo.index then insert lo rem else rem

/-- Embeds the inner loop of _combine_subsumed: scanning, for a fixed
higher-ratio candidate hi, all later candidates and marking those subsumed
by hi as removed (skipping entries already marked). -/
def innerScan (hi : IndexBenefit) (later : List IndexBenefit)
    (removed : Finset IndexBenefit) : Finset IndexBenefit :=
  later.foldl (innerStep hi) removed

/-- Embeds the outer loop of _combine_subsumed: each not-yet-removed
candidate acts as the higher-ratio candidate against the remainder of the
list. -/
def outerScan : List IndexBenefit → Finset IndexBenefit → Finset IndexBenefit
  | [], removed => removed
  | hi :: rest, removed =>
      outerScan rest (if hi ∈ removed then removed else innerScan hi rest removed)

/-- Embeds IBMAlgorithm._combine_subsumed.  A list with fewer than two
entries is returned as a set unchanged; otherwise the assertion comparing
the first two benefit/size ratios is modelled by returning none (the
AssertionError) when it fails, and the surviving set otherwise. -/
def combineSubsumed : List IndexBenefit → Option (Finset IndexBenefit)
  | [] => some ∅
  | [x] => some {x}
  | a :: b :: rest =>
      if b.benefitPerSize ≤ a.benefitPerSize then
        some ((a :: b :: rest).toFinset \ outerScan (a :: b :: rest) ∅)
      else none

/-- Sum of the sizes of a list of IndexBenefit entries, as computed by
sum([x[size] for x in selected_indexes]). -/
def sumSizes (l : List IndexBenefit) : ℚ :=
  (l.map IndexBenefit.size).sum

/-- Embeds the greedy fill loop of _calculate_best_indexes (lines 64-69):
walk the list, admit a candidate iff the cumulative size of the admitted
ones plus its own size stays within the disk constraint. -/
def greedyGo (B : ℚ) : List IndexBenefit → List IndexBenefit → ℚ →
    List IndexBenefit × ℚ
  | [], sel, usage => (sel, usage)
  | ib :: rest, sel, usage =>
      if usage + ib.size ≤ B then greedyGo B rest (sel ++ [ib]) (usage + ib.size)
      else greedyGo B rest sel usage

/-- Embeds the greedy selector: start from an empty selection and zero disk
usage and walk the whole candidate list. -/
def greedyFill (l : List IndexBenefit) (B : ℚ) : List IndexBenefit × ℚ :=
  greedyGo B l [] 0

/-- Ordering placing higher benefit/size ratios first, as used by
sorted(..., reverse=True, key=lambda x: x.benefit_size_ratio()). -/
def ratioGE (a b : IndexBenefit) : Prop :=
  b.benefitPerSize ≤ a.benefitPerSize

instance : DecidableRel ratioGE :=
  fun a b => inferInstanceAs (Decidable (b.benefitPerSize ≤ a.benefitPerSize))

instance : IsTotal IndexBenefit ratioGE :=
  ⟨fun a b => le_total b.benefitPerSize a.benefitPerSize⟩

instance : IsTrans IndexBenefit ratioGE :=
  ⟨fun _ _ _ h h' => le_trans h' h⟩

/-- Embeds the per-query structure stored in query_results by
_exploit_virtual_indexes and consumed by _calculate_index_benefits. -/
structure QueryResult where
  costWithoutIndexes : ℚ
  costWithRecommendedIndexes : ℚ
  recommendedIndexes : List Index
  deriving DecidableEq, Repr

/-- Embeds the inner loop of _calculate_index_benefits: queries whose
recommended set does not contain the candidate are skipped, the others
contribute cost_without_indexes - cost_with_recommended_indexes. -/
def benefitOf (c : Index) (qrs : List QueryResult) : ℚ :=
  qrs.foldl
    (fun acc v =>
      if c ∈ v.recommendedIndexes then
        acc + (v.costWithoutIndexes - v.costWithRecommendedIndexes)
      else acc)
    0

/-- Embeds IBMAlgorithm._calculate_index_benefits: one IndexBenefit per
candidate, then a stable sort placing the highest benefit/size ratio first
(Python sorted is a stable sort; a stable sort by the same key yields the
same list). -/
def calculateIndexBenefits (candidates : List Index) (qrs : List QueryResult) :
    List IndexBenefit :=
  (candidates.map (fun c => ⟨c, benefitOf c qrs⟩)).insertionSort ratioGE

/-- Modelled from the spec: a query carries its referenced (indexable)
columns (selection/workload.py is not part of the provided sources). -/
structure Query where
  columns : List Column
  deriving DecidableEq, Repr

/-- Tables owning at least one indexable column of the query, in first
occurrence order: the keys of indexable_columns_per_table. -/
def tablesOf (q : Query) : List String :=
  (q.columns.map Column.table).dedup

/-- Columns of the query owned by table t, deduplicated: the per-table set
indexable_columns_per_table[t]. -/
def tableColumns (q : Query) (t : String) : List Column :=
  (q.columns.filter (fun c => c.table == t)).dedup

/-- Embeds itertools.permutations(columns, k) on a set of columns: every
ordering of every k-element subset. -/
def permsLen (k : Nat) (l : List Column) : List (List Column) :=
  (l.sublistsLen k).flatMap List.permutations'

/-- Embeds IBMAlgorithm._possible_indexes at the level of column sequences:
group the query columns by table and take all permutations of every length
1..K per table, deduplicated as a set. -/
def possibleIndexes (q : Query) (K : Nat) : Finset (List Column) :=
  ((tablesOf q).flatMap (fun t =>
    (List.range' 1 K).flatMap (fun k => permsLen k (tableColumns q t)))).toFinset

/-- Abstraction of the external cost oracle (database_connector plus the
what-if machinery): baseline plan cost, plan cost with the query's
candidates simulated, and whether a candidate's hypopg name occurs in that
plan's textual representation. -/
structure Oracle where
  baselineCost : Query → ℚ
  costWithCandidates : Query → ℚ
  inPlan : Query → List Column → Bool

/-- Embeds the filtering loop of _recommended_indexes: the candidates whose
hypopg name appears in the plan obtained with all candidates simulated. -/
def recommendedFor (o : Oracle) (K : Nat) (q : Query) : Finset (List Column) :=
  (possibleIndexes q K).filter (fun cs => o.inPlan q cs = true)

/-- Per-query record produced by _exploit_virtual_indexes. -/
structure QueryOutcome where
  costWithoutIndexes : ℚ
  costWithRecommendedIndexes : ℚ
  recommended : Finset (List Column)
  deriving DecidableEq

/-- Embeds IBMAlgorithm._exploit_virtual_indexes: walk the workload,
record the per-query outcome, and accumulate index_candidates via
index_candidates.update(indexes) where indexes is the recommended subset. -/
def exploitVirtualIndexes (o : Oracle) (K : Nat) :
    List Query → List (Query × QueryOutcome) × Finset (List Column)
  | [] => ([], ∅)
  | q :: rest =>
      let recs := recommendedFor o K q
      let p := exploitVirtualIndexes o K rest
      ((q, ⟨o.baselineCost q, o.costWithCandidates q, recs⟩) :: p.1, recs ∪ p.2)

/-- State of the try-variations loop: the selected list, the unused pool and
the current (baseline) workload cost. -/
structure RefState where
  selected : List IndexBenefit
  notUsed : List IndexBenefit
  currentCost : ℚ
  deriving DecidableEq, Repr

/-- Random draws of one try-variations iteration: number_removed, the
shuffled position list for the removals, and the choice function standing
for shuffle(candidates)[0] at each addition step. -/
structure Move where
  numberRemoved : Nat
  removeAt : List Nat
  pick : Nat → Nat

/-- Embeds sorted(remove_at_indexes, reverse=True). -/
def sortDescNat (l : List Nat) : List Nat :=
  l.insertionSort (fun a b => b ≤ a)

instance : DecidableRel (fun a b : Nat => b ≤ a) :=
  fun a b => inferInstanceAs (Decidable (b ≤ a))

/-- Embeds the removal loop of _try_variations: delete the chosen positions
(processed in descending order) from the selected list, collecting the
removed entries in processing order. -/
def removeAtPositions :
    List IndexBenefit → List Nat → List IndexBenefit × List IndexBenefit
  | cur, [] => (cur, [])
  | cur, i :: rest =>
      if h : i < cur.length then
        let p := removeAtPositions (cur.eraseIdx i) rest
        (p.1, cur.get ⟨i, h⟩ :: p.2)
      else removeAtPositions cur rest

/-- Embeds the addition loop of _try_variations: up to number_removed times,
filter the unused pool to the candidates fitting the remaining budget, stop
if none fits, otherwise take one (an arbitrary element, standing for
shuffle(candidates)[0]), account its size and remove it from the pool. -/
def addLoop (B : ℚ) (pick : Nat → Nat) :
    Nat → Nat → List IndexBenefit → ℚ →
    List IndexBenefit × List IndexBenefit × ℚ
  | _, 0, notUsed, usage => (notUsed, [], usage)
  | t, k + 1, notUsed, usage =>
      let cands := notUsed.filter (fun x => decide (x.size ≤ B - usage))
      if h : cands.length = 0 then (notUsed, [], usage)
      else
        let c := cands.get ⟨pick t % cands.length, Nat.mod_lt _ (Nat.pos_of_ne_zero h)⟩
        let p := addLoop B pick (t + 1) k (notUsed.erase c) (usage + c.size)
        (p.1, c :: p.2.1, p.2.2)

/-- Remaining selected entries and removed entries of one iteration. -/
def iterRemove (mv : Move) (st : RefState) :
    List IndexBenefit × List IndexBenefit :=
  removeAtPositions st.selected (sortDescNat (mv.removeAt.take mv.numberRemoved))

/-- Unused pool, newly selected entries and tracked disk usage after the
addition loop of one iteration; the starting usage mirrors the per-removal
decrements from disk_usage = sum of the selected sizes. -/
def iterAdd (B : ℚ) (mv : Move) (st : RefState) :
    List IndexBenefit × List IndexBenefit × ℚ :=
  addLoop B mv.pick 0 mv.numberRemoved st.notUsed
    (sumSizes st.selected - sumSizes (iterRemove mv st).2)

/-- Cost evaluated by one iteration: _evaluate_workload(selected_indexes,
new_selected, workload), with e abstracting cost_evaluation.calculate_cost
applied to the underlying indexes. -/
def iterCost (e : List Index → ℚ) (B : ℚ) (mv : Move) (st : RefState) : ℚ :=
  e (((iterRemove mv st).1 ++ (iterAdd B mv st).2.1).map IndexBenefit.index)

/-- Embeds one iteration of the while loop of _try_variations, including the
accept (cost strictly lower) and reject branches. -/
def tryVariationIteration (e : List Index → ℚ) (B : ℚ) (mv : Move)
    (st : RefState) : RefState :=
  if iterCost e B mv st < st.currentCost then
    { selected := (iterRemove mv st).1 ++ (iterAdd B mv st).2.1
      notUsed := (iterAdd B mv st).1 ++ (iterRemove mv st).2
      currentCost := iterCost e B mv st }
  else
    { selected := (iterRemove mv st).1 ++ (iterRemove mv st).2
      notUsed := (iterAdd B mv st).1 ++ (iterAdd B mv st).2.1
      currentCost := st.currentCost }

/-- Runs the try-variations loop for one iteration per supplied Move (the
wall-clock bound determines only how many iterations run). -/
def runTryVariations (e : List Index → ℚ) (B : ℚ) (mvs : List Move)
    (st : RefState) : RefState :=
  mvs.foldl (fun s m => tryVariationIteration e B m s) st

/-- Descending sortedness by benefit/size ratio of a whole benefit list, as
the specification words it ("sorted descending by benefit/size ratio"). -/
def sortedDescByRat (l : List IndexBenefit) : Prop :=
  l.Sorted ratioGE

instance (l : List IndexBenefit) : Decidable (sortedDescByRat l) :=
  inferInstanceAs (Decidable (l.Pairwise ratioGE))

/-- Formulation following the words of the specification: benefit(C) is the
sum over exactly those queries whose recommended set contains C of
(baseline cost minus cost with recommended indexes). -/
def specBenefit (c : Index) (qrs : List QueryResult) : ℚ :=
  ((qrs.filter (fun v => decide (c ∈ v.recommendedIndexes))).map
    (fun v => v.costWithoutIndexes - v.costWithRecommendedIndexes)).sum

/-! ### Concrete data for counterexamples and witnesses -/

/-- Concrete column a of table t. -/
def colA : Column := ⟨"t", "a"⟩

/-- Concrete column b of table t. -/
def colB : Column := ⟨"t", "b"⟩

/-- Concrete column c of table t. -/
def colC : Column := ⟨"t", "c"⟩

/-- Single-column entry with benefit/size ratio 5. -/
def ibA : IndexBenefit := ⟨⟨[colA], 2⟩, 10⟩

/-- Two-column entry with benefit/size ratio 3 whose index subsumes ibA's. -/
def ibAB : IndexBenefit := ⟨⟨[colA, colB], 2⟩, 6⟩

/-- Entry with ratio 5 on column a. -/
def jbA : IndexBenefit := ⟨⟨[colA], 1⟩, 5⟩

/-- Entry with ratio 3 on column b. -/
def jbB : IndexBenefit := ⟨⟨[colB], 1⟩, 3⟩

/-- Entry with ratio 4 on column c. -/
def jbC : IndexBenefit := ⟨⟨[colC], 1⟩, 4⟩

/-- High-ratio entry whose index subsumes lbA's index. -/
def hbAB : IndexBenefit := ⟨⟨[colA, colB], 1⟩, 10⟩

/-- Low-ratio entry subsumed by hbAB. -/
def lbA : IndexBenefit := ⟨⟨[colA], 1⟩, 3⟩

/-- Query referencing columns a and b of table t. -/
def exQuery : Query := ⟨[colA, colB]⟩

/-- Oracle whose plan references only the single-column index on a, with
baseline cost 100 and cost 10 once candidates are simulated. -/
def exOracle : Oracle := ⟨fun _ => 100, fun _ => 10, fun _ cs => cs == [colA]⟩

/-- Refiner state used by the concrete witnesses: one selected entry, one
unused entry, baseline cost 0. -/
def wSt : RefState := ⟨[jbA], [jbB], 0⟩

/-- Move used by the concrete witnesses: remove one entry at position 0 and
always pick the first eligible candidate. -/
def wMv : Move := ⟨1, [0], fun _ => 0⟩

/-- Constant cost evaluator used by the concrete witnesses. -/
def wE : List Index → ℚ := fun _ => 100

/-! ## Helper lemmas -/

lemma sumSizes_nil : sumSizes [] = 0 := rfl

lemma sumSizes_cons (x : IndexBenefit) (l : List IndexBenefit) :
    sumSizes (x :: l) = x.size + sumSizes l := by
  simp [sumSizes]

lemma sumSizes_append (a b : List IndexBenefit) :
    sumSizes (a ++ b) = sumSizes a + sumSizes b := by
  simp [sumSizes]

lemma sumSizes_perm {a b : List IndexBenefit} (h : a.Perm b) :
    sumSizes a = sumSizes b :=
  (h.map IndexBenefit.size).sum_eq

lemma sumSizes_nonneg {l : List IndexBenefit}
    (h : ∀ x ∈ l, 0 ≤ x.size) : 0 ≤ sumSizes l := by
  refine List.sum_nonneg ?_
  intro q hq
  obtain ⟨x, hx, rfl⟩ := List.mem_map.1 hq
  exact h x hx

lemma greedyGo_diff (B : ℚ) :
    ∀ (l sel : List IndexBenefit) (u : ℚ),
      (greedyGo B l sel u).2 - sumSizes (greedyGo B l sel u).1 = u - sumSizes sel := by
  intro l
  induction l with
  | nil => intro sel u; simp [greedyGo]
  | cons ib rest ih =>
      intro sel u
      simp only [greedyGo]
      split
      · rw [ih (sel ++ [ib]) (u + ib.size), sumSizes_append, sumSizes_cons, sumSizes_nil]
        ring
      · exact ih sel u

lemma greedyGo_append (B : ℚ) :
    ∀ (l1 l2 sel : List IndexBenefit) (u : ℚ),
      greedyGo B (l1 ++ l2) sel u =
        greedyGo B l2 (greedyGo B l1 sel u).1 (greedyGo B l1 sel u).2 := by
  intro l1
  induction l1 with
  | nil => intro l2 sel u; rfl
  | cons ib rest ih =>
      intro l2 sel u
      simp only [List.cons_append, greedyGo]
      split
      · exact ih l2 (sel ++ [ib]) (u + ib.size)
      · exact ih l2 sel u

lemma greedyFill_usage (l : List IndexBenefit) (B : ℚ) :
    (greedyFill l B).2 = sumSizes (greedyFill l B).1 := by
  have h := greedyGo_diff B l [] 0
  rw [sumSizes_nil] at h
  unfold greedyFill
  linarith

lemma greedyGo_snd_le (B : ℚ) :
    ∀ (l sel : List IndexBenefit) (u : ℚ), u ≤ B → (greedyGo B l sel u).2 ≤ B := by
  intro l
  induction l with
  | nil => intro sel u h; exact h
  | cons ib rest ih =>
      intro sel u h
      simp only [greedyGo]
      split
      · next hfit => exact ih (sel ++ [ib]) (u + ib.size) hfit
      · exact ih sel u h

/-! ## C1: the greedy selector -/

/-- Claim C1: the greedy fill loop tracks as its disk usage exactly the
cumulative size of the admitted candidates, and a candidate arriving after
any already-processed prefix is admitted if and only if that cumulative
size plus its own size stays within the disk budget — independently of any
earlier skips, so a skipped candidate is skipped permanently while every
later candidate that still fits is admitted. -/
theorem greedyFill_admission (l : List IndexBenefit) (B : ℚ) (x : IndexBenefit) :
    (greedyFill l B).2 = sumSizes (greedyFill l B).1 ∧
    greedyFill (l ++ [x]) B =
      (if (greedyFill l B).2 + x.size ≤ B
       then ((greedyFill l B).1 ++ [x], (greedyFill l B).2 + x.size)
       else greedyFill l B) := by
  constructor
  · exact greedyFill_usage l B
  · unfold greedyFill
    rw [greedyGo_append B l [x] [] 0]
    simp only [greedyGo]

/-! ## C8: cost monotonicity of the refiner -/

/-- Claim C8: each try-variations iteration either leaves the baseline cost
unchanged (a rejected move) or strictly lowers it (an accepted move), and
across any run of the loop the baseline cost never increases. -/
theorem tryVariation_cost_monotone (e : List Index → ℚ) (B : ℚ) (mv : Move)
    (mvs : List Move) (st : RefState) :
    ((tryVariationIteration e B mv st).currentCost = st.currentCost ∨
      (tryVariationIteration e B mv st).currentCost < st.currentCost) ∧
    (runTryVariations e B mvs st).currentCost ≤ st.currentCost := by
  have step : ∀ (m : Move) (s : RefState),
      (tryVariationIteration e B m s).currentCost = s.currentCost ∨
        (tryVariationIteration e B m s).currentCost < s.currentCost := by
    intro m s
    unfold tryVariationIteration
    split
    · next hlt => exact Or.inr hlt
    · exact Or.inl rfl
  refine ⟨step mv st, ?_⟩
  induction mvs generalizing st with
  | nil => exact le_of_eq rfl
  | cons m rest ih =>
      have h1 : (tryVariationIteration e B m st).currentCost ≤ st.currentCost := by
        rcases step m st with h | h
        · exact le_of_eq h
        · exact le_of_lt h
      have h2 := ih (tryVariationIteration e B m st)
      calc (runTryVariations e B (m :: rest) st).currentCost
          = (runTryVariations e B rest (tryVariationIteration e B m st)).currentCost := rfl
        _ ≤ (tryVariationIteration e B m st).currentCost := h2
        _ ≤ st.currentCost := h1

/-! ## C9 and C10: precondition checking of the subsumption reducer -/

/-- Claim C10: with fewer than two entries the reducer returns the input as
a set unchanged, removing nothing and reaching no sortedness assertion. -/
theorem combineSubsumed_short_input :
    combineSubsumed [] = some ∅ ∧
    ∀ x : IndexBenefit, combineSubsumed [x] = some {x} := by
  exact ⟨rfl, fun x => rfl⟩

lemma bps_jbA : jbA.benefitPerSize = 5 := by
  norm_num [IndexBenefit.benefitPerSize, IndexBenefit.size, jbA]

lemma bps_jbB : jbB.benefitPerSize = 3 := by
  norm_num [IndexBenefit.benefitPerSize, IndexBenefit.size, jbB]

lemma bps_jbC : jbC.benefitPerSize = 4 := by
  norm_num [IndexBenefit.benefitPerSize, IndexBenefit.size, jbC]

/-- Claim C9 counterexample: a three-entry list whose first pair is in
descending ratio order (5, 3) but whose tail is not (3 then 4) is not
sorted, yet the reducer accepts it and returns a surviving set instead of
failing. -/
theorem combineSubsumed_unsorted_accepted_example :
    2 ≤ ([jbA, jbB, jbC] : List IndexBenefit).length ∧
    ¬ sortedDescByRat [jbA, jbB, jbC] ∧
    combineSubsumed [jbA, jbB, jbC] = some {jbA, jbB, jbC} := by
  refine ⟨by decide, ?_, ?_⟩
  · intro hs
    simp only [sortedDescByRat, List.Sorted, List.pairwise_cons] at hs
    have h := hs.2.1 jbC (List.mem_cons_self jbC [])
    rw [ratioGE, bps_jbB, bps_jbC] at h
    norm_num at h
  · simp only [combineSubsumed, bps_jbA, bps_jbB]
    rw [if_pos (by norm_num : (3:ℚ) ≤ 5)]
    decide

/-- Claim C9 amended: on a list of at least two entries the reducer checks
only the first two entries, failing with the precondition error exactly
when the first entry's benefit/size ratio is below the second's; a list
mis-sorted only beyond its first pair passes the check. -/
theorem combineSubsumed_failure_iff (a b : IndexBenefit)
    (rest : List IndexBenefit) :
    combineSubsumed (a :: b :: rest) = none ↔
      a.benefitPerSize < b.benefitPerSize := by
  simp only [combineSubsumed]
  split
  · next h => exact iff_of_false (by simp) (not_lt.2 h)
  · next h => exact iff_of_true rfl (not_le.1 h)

/-! ## C4: machinery for the subsumption reducer -/

lemma le_innerStep (hi : IndexBenefit) (r : Finset IndexBenefit)
    (y : IndexBenefit) : r ⊆ innerStep hi r y := by
  unfold innerStep
  split
  · exact Finset.Subset.refl r
  · split
    · exact Finset.subset_insert y r
    · exact Finset.Subset.refl r

lemma mem_innerStep_sub {hi z : IndexBenefit} {r : Finset IndexBenefit}
    {y : IndexBenefit} (h : z ∈ innerStep hi r y) : z ∈ r ∨ z = y := by
  unfold innerStep at h
  split at h
  · exact Or.inl h
  · split at h
    · rcases Finset.mem_insert.1 h with h | h
      · exact Or.inr h
      · exact Or.inl h
    · exact Or.inl h

lemma mem_innerStep_self {hi y : IndexBenefit} (r : Finset IndexBenefit)
    (hs : hi.index.subsumes y.index) : y ∈ innerStep hi r y := by
  unfold innerStep
  split
  · next hy => exact hy
  · exact Finset.mem_insert_self y r

lemma innerScan_cons (hi y : IndexBenefit) (ys : List IndexBenefit)
    (r : Finset IndexBenefit) :
    innerScan hi (y :: ys) r = innerScan hi ys (innerStep hi r y) := rfl

lemma le_innerScan (hi : IndexBenefit) :
    ∀ (xs : List IndexBenefit) (r : Finset IndexBenefit), r ⊆ innerScan hi xs r := by
  intro xs
  induction xs with
  | nil => intro r; exact Finset.Subset.refl r
  | cons y ys ih =>
      intro r
      rw [innerScan_cons]
      exact (le_innerStep hi r y).trans (ih _)

lemma mem_innerScan_sub {hi z : IndexBenefit} :
    ∀ (xs : List IndexBenefit) (r : Finset IndexBenefit),
      z ∈ innerScan hi xs r → z ∈ r ∨ z ∈ xs := by
  intro xs
  induction xs with
  | nil => intro r h; exact Or.inl h
  | cons y ys ih =>
      intro r h
      rw [innerScan_cons] at h
      rcases ih _ h with h2 | h2
      · rcases mem_innerStep_sub h2 with h3 | h3
        · exact Or.inl h3
        · exact Or.inr (by simp [h3])
      · exact Or.inr (List.mem_cons_of_mem y h2)

lemma mem_innerScan_of {hi v : IndexBenefit} :
    ∀ (xs : List IndexBenefit) (r : Finset IndexBenefit),
      v ∈ xs → hi.index.subsumes v.index → v ∈ innerScan hi xs r := by
  intro xs
  induction xs with
  | nil => intro r hv _; exact absurd hv (List.not_mem_nil v)
  | cons y ys ih =>
      intro r hv hs
      rw [innerScan_cons]
      rcases List.mem_cons.1 hv with hv | hv
      · subst hv
        exact le_innerScan hi ys _ (mem_innerStep_self r hs)
      · exact ih _ hv hs

lemma le_outerScan :
    ∀ (l : List IndexBenefit) (r : Finset IndexBenefit), r ⊆ outerScan l r := by
  intro l
  induction l with
  | nil => intro r; exact Finset.Subset.refl r
  | cons hi rest ih =>
      intro r
      have h1 : r ⊆ (if hi ∈ r then r else innerScan hi rest r) := by
        split
        · exact Finset.Subset.refl r
        · exact le_innerScan hi rest r
      exact h1.trans (ih _)

lemma mem_outerScan_sub {z : IndexBenefit} :
    ∀ (l : List IndexBenefit) (r : Finset IndexBenefit),
      z ∈ outerScan l r → z ∈ r ∨ z ∈ l.tail := by
  intro l
  induction l with
  | nil => intro r h; exact Or.inl h
  | cons hi rest ih =>
      intro r h
      rcases ih _ h with h2 | h2
      · by_cases hy : hi ∈ r
        · rw [if_pos hy] at h2
          exact Or.inl h2
        · rw [if_neg hy] at h2
          rcases mem_innerScan_sub rest r h2 with h3 | h3
          · exact Or.inl h3
          · exact Or.inr h3
      · exact Or.inr (List.mem_of_mem_tail h2)

lemma mem_outerScan_forced {u v : IndexBenefit}
    (hsub : u.index.subsumes v.index) :
    ∀ (l1 l2 : List IndexBenefit) (r : Finset IndexBenefit), v ∈ l2 →
      u ∉ outerScan (l1 ++ u :: l2) r → v ∈ outerScan (l1 ++ u :: l2) r := by
  intro l1
  induction l1 with
  | nil =>
      intro l2 r hv hu
      simp only [List.nil_append, outerScan] at hu ⊢
      by_cases h0 : u ∈ r
      · exact absurd (le_outerScan l2 _ (by rw [if_pos h0]; exact h0)) hu
      · rw [if_neg h0] at hu ⊢
        exact le_outerScan l2 _ (mem_innerScan_of l2 r hv hsub)
  | cons h1 l1' ih =>
      intro l2 r hv hu
      simp only [List.cons_append, outerScan] at hu ⊢
      exact ih l2 _ hv hu

lemma bps_ibA : ibA.benefitPerSize = 5 := by
  norm_num [IndexBenefit.benefitPerSize, IndexBenefit.size, ibA]

lemma bps_ibAB : ibAB.benefitPerSize = 3 := by
  norm_num [IndexBenefit.benefitPerSize, IndexBenefit.size, ibAB]

lemma bps_hbAB : hbAB.benefitPerSize = 10 := by
  norm_num [IndexBenefit.benefitPerSize, IndexBenefit.size, hbAB]

lemma bps_lbA : lbA.benefitPerSize = 3 := by
  norm_num [IndexBenefit.benefitPerSize, IndexBenefit.size, lbA]

/-- Claim C4 counterexample: the list [ibA, ibAB] is sorted descending by
ratio (5 then 3) and the reducer keeps both entries, yet the surviving
entry ibA's index is subsumed by the other surviving entry ibAB's index
(a lower-ratio index can subsume a higher-ratio one and the scan only ever
removes in the other direction), refuting the claim that no surviving
entry is subsumed by another surviving entry. -/
theorem combineSubsumed_subsumed_survivor_example :
    sortedDescByRat [ibA, ibAB] ∧
    combineSubsumed [ibA, ibAB] = some {ibA, ibAB} ∧
    ibA ∈ ({ibA, ibAB} : Finset IndexBenefit) ∧
    ibAB ∈ ({ibA, ibAB} : Finset IndexBenefit) ∧
    ibA ≠ ibAB ∧
    ibAB.index.subsumes ibA.index := by
  refine ⟨?_, ?_, by decide, by decide, by decide, by decide⟩
  · show List.Pairwise ratioGE [ibA, ibAB]
    refine List.Pairwise.cons ?_ (List.Pairwise.cons ?_ List.Pairwise.nil)
    · intro x hx
      rcases List.mem_cons.1 hx with hx | hx
      · subst hx
        show ibAB.benefitPerSize ≤ ibA.benefitPerSize
        rw [bps_ibAB, bps_ibA]
        norm_num
      · exact absurd hx (List.not_mem_nil x)
    · intro x hx
      exact absurd hx (List.not_mem_nil x)
  · simp only [combineSubsumed, bps_ibA, bps_ibAB]
    rw [if_pos (by norm_num : (3:ℚ) ≤ 5)]
    decide

/-- Claim C4 amended: whenever the reducer succeeds, the first entry of the
input survives provided it does not also occur later in the list, and no
surviving entry is subsumed by a surviving entry occurring strictly
earlier in the input list (removal only runs from earlier, higher-ratio
entries towards later ones). -/
theorem combineSubsumed_amended_spec (l : List IndexBenefit)
    (s : Finset IndexBenefit) (h : combineSubsumed l = some s) :
    (∀ a rest, l = a :: rest → a ∉ rest → a ∈ s) ∧
    (∀ (l1 : List IndexBenefit) (u : IndexBenefit) (l2 : List IndexBenefit)
        (v : IndexBenefit), l = l1 ++ u :: l2 → v ∈ l2 → u ∈ s → v ∈ s →
        ¬ u.index.subsumes v.index) := by
  rcases l with _ | ⟨a, l'⟩
  · constructor
    · intro a rest heq _
      exact absurd heq (by simp)
    · intro l1 u l2 v heq hv _ _ _
      rcases List.append_eq_nil.1 heq.symm with ⟨_, h2⟩
      exact absurd h2 (by simp)
  rcases l' with _ | ⟨b, rest⟩
  · simp only [combineSubsumed, Option.some.injEq] at h
    subst h
    constructor
    · intro x xs heq _
      rw [List.cons.injEq] at heq
      rw [heq.1]
      exact Finset.mem_singleton_self x
    · intro l1 u l2 v heq hv _ _ _
      have hlen := congrArg List.length heq
      simp [List.length_append] at hlen
      have : l2 = [] := List.eq_nil_of_length_eq_zero (by omega)
      rw [this] at hv
      exact absurd hv (List.not_mem_nil v)
  have hs : s = (a :: b :: rest).toFinset \ outerScan (a :: b :: rest) ∅ := by
    simp only [combineSubsumed] at h
    split at h
    · injection h with h2
      exact h2.symm
    · exact Option.noConfusion h
  subst hs
  constructor
  · intro x xs heq hx
    rw [List.cons.injEq] at heq
    obtain ⟨rfl, rfl⟩ := heq
    refine Finset.mem_sdiff.2 ⟨by simp, ?_⟩
    intro hmem
    rcases mem_outerScan_sub _ _ hmem with h2 | h2
    · exact absurd h2 (Finset.not_mem_empty _)
    · exact hx h2
  · intro l1 u l2 v heq hv hu hvs hsub
    have hu' : u ∉ outerScan (a :: b :: rest) ∅ := (Finset.mem_sdiff.1 hu).2
    have hv' : v ∉ outerScan (a :: b :: rest) ∅ := (Finset.mem_sdiff.1 hvs).2
    rw [heq] at hu' hv'
    exact hv' (mem_outerScan_forced hsub l1 l2 ∅ hv hu')

/-- Witness for the amended C4 theorem: on the concrete sorted list
[hbAB, lbA] the reducer succeeds with surviving set made of hbAB alone, and
the theorem instantiated there yields that the first entry hbAB survives. -/
theorem combineSubsumed_amended_spec_witness :
    combineSubsumed [hbAB, lbA] = some {hbAB} ∧
    hbAB ∈ ({hbAB} : Finset IndexBenefit) := by
  have hc : combineSubsumed [hbAB, lbA] = some {hbAB} := by
    simp only [combineSubsumed, bps_hbAB, bps_lbA]
    rw [if_pos (by norm_num : (3:ℚ) ≤ 10)]
    decide
  refine ⟨hc, ?_⟩
  exact (combineSubsumed_amended_spec [hbAB, lbA] {hbAB} hc).1 hbAB [lbA] rfl
    (by decide)

/-! ## C6 and C7: machinery for the refiner -/

lemma perm_get_eraseIdx {α : Type} :
    ∀ (l : List α) (i : Nat) (h : i < l.length),
      l.Perm (l.get ⟨i, h⟩ :: l.eraseIdx i) := by
  intro l
  induction l with
  | nil => intro i h; exact absurd h (by simp)
  | cons a t ih =>
      intro i h
      cases i with
      | zero => exact List.Perm.refl _
      | succ j =>
          have hj : j < t.length := by simpa using h
          simp only [List.get_cons_succ, List.eraseIdx_cons_succ]
          exact ((ih j hj).cons a).trans (List.Perm.swap _ a _)

lemma removeAtPositions_perm :
    ∀ (ps : List Nat) (cur : List IndexBenefit),
      ((removeAtPositions cur ps).1 ++ (removeAtPositions cur ps).2).Perm cur := by
  intro ps
  induction ps with
  | nil => intro cur; simp [removeAtPositions]
  | cons i rest ih =>
      intro cur
      simp only [removeAtPositions]
      split
      · next h =>
          refine List.Perm.trans ?_ (perm_get_eraseIdx cur i h).symm
          exact List.perm_middle.trans ((ih (cur.eraseIdx i)).cons _)
      · exact ih cur

lemma addStep_facts (u B : ℚ) (c : IndexBenefit) (nu : List IndexBenefit)
    (P : List IndexBenefit × List IndexBenefit × ℚ)
    (hmem : c ∈ nu) (hsize : c.size ≤ B - u)
    (h1 : P.2.2 = (u + c.size) + sumSizes P.2.1)
    (h2 : u + c.size ≤ B → P.2.2 ≤ B)
    (h3 : (P.1 ++ P.2.1).Perm (nu.erase c)) :
    ((P.1, c :: P.2.1, P.2.2) : List IndexBenefit × List IndexBenefit × ℚ).2.2 =
      u + sumSizes (P.1, c :: P.2.1, P.2.2).2.1 ∧
    (u ≤ B → ((P.1, c :: P.2.1, P.2.2) :
      List IndexBenefit × List IndexBenefit × ℚ).2.2 ≤ B) ∧
    (((P.1, c :: P.2.1, P.2.2) :
      List IndexBenefit × List IndexBenefit × ℚ).1 ++
        (P.1, c :: P.2.1, P.2.2).2.1).Perm nu := by
  refine ⟨?_, ?_, ?_⟩
  · show P.2.2 = u + sumSizes (c :: P.2.1)
    rw [sumSizes_cons, h1]
    ring
  · intro _
    exact h2 (by linarith)
  · show (P.1 ++ c :: P.2.1).Perm nu
    exact List.perm_middle.trans
      ((h3.cons c).trans (List.perm_cons_erase hmem).symm)

lemma addLoop_facts (B : ℚ) (pick : Nat → Nat) :
    ∀ (k t : Nat) (nu : List IndexBenefit) (u : ℚ),
      (addLoop B pick t k nu u).2.2 = u + sumSizes (addLoop B pick t k nu u).2.1 ∧
      (u ≤ B → (addLoop B pick t k nu u).2.2 ≤ B) ∧
      ((addLoop B pick t k nu u).1 ++ (addLoop B pick t k nu u).2.1).Perm nu := by
  intro k
  induction k with
  | zero =>
      intro t nu u
      exact ⟨by simp [addLoop, sumSizes], fun h => h, by simp [addLoop]⟩
  | succ k ih =>
      intro t nu u
      simp only [addLoop]
      split
      · exact ⟨by simp [sumSizes], fun h => h, by simp⟩
      · next hlen =>
          have hmm := List.mem_filter.1 (List.get_mem
            (nu.filter fun x => decide (x.size ≤ B - u))
            (pick t % (nu.filter fun x => decide (x.size ≤ B - u)).length)
            (Nat.mod_lt _ (Nat.pos_of_ne_zero hlen)))
          exact addStep_facts u B _ nu _ hmm.1 (of_decide_eq_true hmm.2)
            (ih (t + 1) _ _).1 (ih (t + 1) _ _).2.1 (ih (t + 1) _ _).2.2

/-- Claim C6: after any number of greedy steps the cumulative size of the
selected set stays within the budget, and one refiner iteration - whether
it accepts or rejects - keeps the cumulative size of the selected set
within the budget. -/
theorem budget_invariant (l : List IndexBenefit) (B : ℚ) (e : List Index → ℚ)
    (mv : Move) (st : RefState) (hB : 0 ≤ B)
    (hsz : ∀ x ∈ st.selected, 0 ≤ x.size)
    (hsel : sumSizes st.selected ≤ B) :
    (∀ i : Nat, sumSizes (greedyFill (l.take i) B).1 ≤ B) ∧
    sumSizes (tryVariationIteration e B mv st).selected ≤ B := by
  constructor
  · intro i
    have h1 := greedyFill_usage (l.take i) B
    rw [← h1]
    exact greedyGo_snd_le B (l.take i) [] 0 hB
  · have hperm : ((iterRemove mv st).1 ++ (iterRemove mv st).2).Perm st.selected :=
      removeAtPositions_perm _ _
    have hsum : sumSizes (iterRemove mv st).1 + sumSizes (iterRemove mv st).2 =
        sumSizes st.selected := by
      have h := sumSizes_perm hperm
      rw [sumSizes_append] at h
      exact h
    have hrm : 0 ≤ sumSizes (iterRemove mv st).2 :=
      sumSizes_nonneg (fun x hx =>
        hsz x (hperm.mem_iff.1 (List.mem_append.2 (Or.inr hx))))
    have hu1 : sumSizes st.selected - sumSizes (iterRemove mv st).2 ≤ B := by
      linarith
    have hA := addLoop_facts B mv.pick mv.numberRemoved 0 st.notUsed
      (sumSizes st.selected - sumSizes (iterRemove mv st).2)
    have h21 : (iterAdd B mv st).2.2 =
        (sumSizes st.selected - sumSizes (iterRemove mv st).2) +
          sumSizes (iterAdd B mv st).2.1 := hA.1
    have h22 : (iterAdd B mv st).2.2 ≤ B := hA.2.1 hu1
    unfold tryVariationIteration
    split
    · show sumSizes ((iterRemove mv st).1 ++ (iterAdd B mv st).2.1) ≤ B
      rw [sumSizes_append]
      linarith
    · show sumSizes ((iterRemove mv st).1 ++ (iterRemove mv st).2) ≤ B
      rw [sumSizes_append]
      linarith

/-- Witness for the C6 theorem at a concrete budget, list, state and move. -/
theorem budget_invariant_witness :
    (∀ i : Nat, sumSizes (greedyFill ([jbA].take i) 2).1 ≤ 2) ∧
    sumSizes (tryVariationIteration wE 2 wMv wSt).selected ≤ 2 := by
  refine budget_invariant [jbA] 2 wE wMv wSt (by norm_num) ?_ ?_
  · intro x hx
    rcases List.mem_cons.1 hx with hx | hx
    · rw [hx]
      norm_num [IndexBenefit.size, jbA]
    · exact absurd hx (List.not_mem_nil x)
  · norm_num [sumSizes, IndexBenefit.size, wSt, jbA]

/-- Claim C7: when the evaluated cost of an iteration is not strictly lower
than the pre-iteration baseline, the iteration is undone: the selected set
and the unused pool hold exactly the entries they held before (as
multisets), the baseline cost is unchanged and so is the disk usage. -/
theorem tryVariationIteration_reject_frame (e : List Index → ℚ) (B : ℚ)
    (mv : Move) (st : RefState)
    (h : st.currentCost ≤ iterCost e B mv st) :
    ((tryVariationIteration e B mv st).selected).Perm st.selected ∧
    ((tryVariationIteration e B mv st).notUsed).Perm st.notUsed ∧
    (tryVariationIteration e B mv st).currentCost = st.currentCost ∧
    sumSizes (tryVariationIteration e B mv st).selected = sumSizes st.selected := by
  have hnot : ¬ iterCost e B mv st < st.currentCost := not_lt.2 h
  unfold tryVariationIteration
  rw [if_neg hnot]
  refine ⟨?_, ?_, rfl, ?_⟩
  · show ((iterRemove mv st).1 ++ (iterRemove mv st).2).Perm st.selected
    exact removeAtPositions_perm _ _
  · show ((iterAdd B mv st).1 ++ (iterAdd B mv st).2.1).Perm st.notUsed
    exact (addLoop_facts B mv.pick mv.numberRemoved 0 st.notUsed _).2.2
  · show sumSizes ((iterRemove mv st).1 ++ (iterRemove mv st).2) =
      sumSizes st.selected
    exact sumSizes_perm (removeAtPositions_perm _ _)

/-- Witness for the C7 theorem: with a constant cost evaluator returning 100
and baseline cost 0 the iteration is rejected and the frame holds. -/
theorem tryVariationIteration_reject_frame_witness :
    ((tryVariationIteration wE 2 wMv wSt).selected).Perm wSt.selected ∧
    ((tryVariationIteration wE 2 wMv wSt).notUsed).Perm wSt.notUsed ∧
    (tryVariationIteration wE 2 wMv wSt).currentCost = wSt.currentCost ∧
    sumSizes (tryVariationIteration wE 2 wMv wSt).selected =
      sumSizes wSt.selected :=
  tryVariationIteration_reject_frame wE 2 wMv wSt
    (by norm_num [iterCost, wE, wSt])

/-! ## C2: the benefit calculator -/

lemma benefitOf_fold (c : Index) :
    ∀ (qrs : List QueryResult) (acc : ℚ),
      qrs.foldl
        (fun acc v =>
          if c ∈ v.recommendedIndexes then
            acc + (v.costWithoutIndexes - v.costWithRecommendedIndexes)
          else acc) acc = acc + specBenefit c qrs := by
  intro qrs
  induction qrs with
  | nil => intro acc; simp [specBenefit]
  | cons v rest ih =>
      intro acc
      simp only [List.foldl_cons]
      by_cases hv : c ∈ v.recommendedIndexes
      · rw [if_pos hv, ih]
        simp [specBenefit, List.filter_cons, hv]
        ring
      · rw [if_neg hv, ih]
        simp [specBenefit, List.filter_cons, hv]

lemma benefitOf_eq_specBenefit (c : Index) (qrs : List QueryResult) :
    benefitOf c qrs = specBenefit c qrs := by
  have h := benefitOf_fold c qrs 0
  rw [zero_add] at h
  exact h

/-- Claim C2: the benefit calculator produces exactly one IndexBenefit per
candidate whose benefit is the sum, over exactly those queries whose
recommended set contains the candidate, of baseline cost minus cost with
recommended indexes (other queries contributing nothing), and the returned
list is sorted descending by benefit/size ratio. -/
theorem calculateIndexBenefits_spec (candidates : List Index)
    (qrs : List QueryResult) :
    (calculateIndexBenefits candidates qrs).Perm
      (candidates.map (fun c => ⟨c, specBenefit c qrs⟩)) ∧
    sortedDescByRat (calculateIndexBenefits candidates qrs) ∧
    ∀ ib ∈ calculateIndexBenefits candidates qrs,
      ib.benefit = specBenefit ib.index qrs := by
  have hmap : candidates.map (fun c => (⟨c, benefitOf c qrs⟩ : IndexBenefit)) =
      candidates.map (fun c => ⟨c, specBenefit c qrs⟩) := by
    simp only [benefitOf_eq_specBenefit]
  refine ⟨?_, ?_, ?_⟩
  · unfold calculateIndexBenefits
    rw [hmap]
    exact List.perm_insertionSort ratioGE _
  · exact List.sorted_insertionSort ratioGE _
  · intro ib hib
    unfold calculateIndexBenefits at hib
    rw [List.mem_insertionSort] at hib
    obtain ⟨c, _, rfl⟩ := List.mem_map.1 hib
    exact benefitOf_eq_specBenefit c qrs

/-! ## C3: the candidate generator -/

lemma mem_permsLen {s : List Column} {k : Nat} {l : List Column}
    (hl : l.Nodup) :
    s ∈ permsLen k l ↔ s.length = k ∧ s.Nodup ∧ ∀ c ∈ s, c ∈ l := by
  unfold permsLen
  rw [List.mem_flatMap]
  constructor
  · rintro ⟨t, ht, hs⟩
    rw [List.mem_sublistsLen] at ht
    rw [List.mem_permutations'] at hs
    obtain ⟨hsub, hlen⟩ := ht
    refine ⟨by rw [hs.length_eq, hlen], ?_, ?_⟩
    · exact hs.nodup_iff.2 (hsub.nodup hl)
    · intro c hc
      exact hsub.subset (hs.mem_iff.1 hc)
  · rintro ⟨hlen, hnd, hmem⟩
    have tsub : ∀ x ∈ l.filter (fun c => decide (c ∈ s)), x ∈ s := by
      intro x hx
      exact of_decide_eq_true (List.mem_filter.1 hx).2
    have ssub : ∀ x ∈ s, x ∈ l.filter (fun c => decide (c ∈ s)) := by
      intro x hx
      exact List.mem_filter.2 ⟨hmem x hx, decide_eq_true hx⟩
    have hperm : (l.filter (fun c => decide (c ∈ s))).Perm s :=
      ((hl.filter _).subperm tsub).antisymm (hnd.subperm ssub)
    refine ⟨l.filter (fun c => decide (c ∈ s)), ?_, ?_⟩
    · rw [List.mem_sublistsLen]
      exact ⟨List.filter_sublist l, by rw [hperm.length_eq, hlen]⟩
    · rw [List.mem_permutations']
      exact hperm.symm

lemma mem_tableColumns {q : Query} {t : String} {c : Column} :
    c ∈ tableColumns q t ↔ c ∈ q.columns ∧ c.table = t := by
  rw [tableColumns, List.mem_dedup, List.mem_filter, beq_iff_eq]

lemma nodup_tableColumns (q : Query) (t : String) :
    (tableColumns q t).Nodup :=
  List.nodup_dedup _

/-- Claim C3: a column sequence is a generated candidate for a query and
column cap K exactly when it is a nonempty duplicate-free sequence of at
most K of the query's indexable columns all owned by one table - i.e. the
generator produces every ordering of every length 1..K from each table's
indexable columns and nothing else. -/
theorem possibleIndexes_mem_iff (q : Query) (K : Nat) (s : List Column) :
    s ∈ possibleIndexes q K ↔
      (s ≠ [] ∧ s.length ≤ K ∧ s.Nodup ∧ (∀ c ∈ s, c ∈ q.columns) ∧
        ∀ c ∈ s, ∀ d ∈ s, c.table = d.table) := by
  unfold possibleIndexes
  rw [List.mem_toFinset, List.mem_flatMap]
  constructor
  · rintro ⟨t, _, hs⟩
    rw [List.mem_flatMap] at hs
    obtain ⟨k, hk, hsp⟩ := hs
    rw [List.mem_range'_1] at hk
    obtain ⟨hlen, hnd, hmem⟩ := (mem_permsLen (List.nodup_dedup _)).1 hsp
    refine ⟨?_, by omega, hnd, ?_, ?_⟩
    · intro h0
      rw [h0] at hlen
      simp at hlen
      omega
    · intro c hc
      exact (mem_tableColumns.1 (hmem c hc)).1
    · intro c hc d hd
      have h1 := (mem_tableColumns.1 (hmem c hc)).2
      have h2 := (mem_tableColumns.1 (hmem d hd)).2
      rw [h1, h2]
  · rintro ⟨hne, hle, hnd, hmem, htab⟩
    rcases s with _ | ⟨c0, srest⟩
    · exact absurd rfl hne
    refine ⟨c0.table, ?_, ?_⟩
    · rw [tablesOf, List.mem_dedup, List.mem_map]
      exact ⟨c0, hmem c0 (List.mem_cons_self _ _), rfl⟩
    · rw [List.mem_flatMap]
      refine ⟨(c0 :: srest).length, ?_, ?_⟩
      · rw [List.mem_range'_1]
        simp only [List.length_cons] at hle ⊢
        omega
      · rw [mem_permsLen (nodup_tableColumns q c0.table)]
        refine ⟨rfl, hnd, ?_⟩
        intro c hc
        exact mem_tableColumns.2
          ⟨hmem c hc, htab c hc c0 (List.mem_cons_self _ _)⟩

/-! ## C5: the cost-oracle adapter -/

/-- Claim C5 counterexample: for the one-query workload on exQuery with
K = 1 the candidate [colB] is generated and simulated, yet the returned
candidate union does not contain it, because the adapter accumulates only
the recommended subsets. -/
theorem exploitVirtualIndexes_missing_candidate_example :
    [colB] ∈ possibleIndexes exQuery 1 ∧
    [colB] ∉ (exploitVirtualIndexes exOracle 1 [exQuery]).2 :=
  ⟨by decide, by decide⟩

/-- Claim C5 amended: the adapter returns the per-query records (baseline
cost, cost with the recommended indexes, recommended subset) in workload
order, and its returned candidate union contains exactly the candidates
recommended for at least one query. -/
theorem exploitVirtualIndexes_results_and_union (o : Oracle) (K : Nat)
    (w : List Query) :
    (exploitVirtualIndexes o K w).1 =
      w.map (fun q => (q, ⟨o.baselineCost q, o.costWithCandidates q,
        recommendedFor o K q⟩)) ∧
    ∀ cs : List Column,
      cs ∈ (exploitVirtualIndexes o K w).2 ↔
        ∃ q ∈ w, cs ∈ recommendedFor o K q := by
  induction w with
  | nil =>
      refine ⟨rfl, ?_⟩
      intro cs
      simp [exploitVirtualIndexes]
  | cons q rest ih =>
      constructor
      · simp only [exploitVirtualIndexes, List.map_cons]
        rw [ih.1]
      · intro cs
        simp only [exploitVirtualIndexes]
        rw [Finset.mem_union, ih.2 cs, List.exists_mem_cons_iff]

end IBM
